import Mathlib

/-!
Verification of the session workspace manager (src/main.py, src/main_simple.py)
against its natural-language specification.

The Python code is shallowly embedded: strings are Lean `String`s, CPython
string/path primitives (`os.path.normpath`, `os.path.join`, `str.split`,
`str.startswith`, `str.replace`, the `in` substring test, `str.isdigit`) are
modelled as executable Lean functions over `String` / `List Char`, and each
route's path computation and control flow is translated into a pure function.
`str.isdigit` is modelled by the full table of Unicode code-point ranges it
accepts (Numeric_Type Decimal or Digit), taken from CPython's Unicode
database, so non-ASCII digit characters such as `'²'` are accepted exactly
as the running program accepts them.
-/

namespace WebIDE

/-! ## CPython string and path primitives -/

/-- CPython `s.split("/")` on the character list of a string: splits on every
separator, keeping empty pieces (so `""` gives `[""]` and `"/a"` gives
`["", "a"]`). -/
def splitSep (l : List Char) : List (List Char) := l.splitOn '/'

/-- The parent-directory component `".."` as a character list. -/
def dd : List Char := ['.', '.']

/-- CPython `str.startswith`: the candidate is a prefix of the string. -/
def pyStartsWith (s pre : String) : Bool := decide (pre.data <+: s.data)

/-- CPython `str.endswith`: the candidate is a suffix of the string. -/
def pyEndsWith (s suf : String) : Bool := decide (suf.data <:+ s.data)

/-- CPython `sub in s`: substring (contiguous) containment. -/
def pyIn (sub s : String) : Bool := decide (sub.data <:+: s.data)

/-- Number of initial slashes kept by `posixpath.normpath`: one slash for one
or for three-or-more leading separators, two for exactly two. -/
def initialSlashes (l : List Char) : Nat :=
  if l.take 3 = ['/', '/', '/'] then 1
  else if l.take 2 = ['/', '/'] then 2
  else if l.take 1 = ['/'] then 1
  else 0

/-- One step of the component loop of `posixpath.normpath`: drop empty and
`"."` components, let `".."` cancel a previous real component, and keep
`".."` when it cannot cancel (at the front of a relative path or after
another kept `".."`). -/
def normStep (k : Nat) (acc : List (List Char)) (comp : List Char) : List (List Char) :=
  if comp = [] ∨ comp = ['.'] then acc
  else if comp ≠ dd ∨ (k = 0 ∧ acc = []) ∨ acc.getLast? = some dd then acc ++ [comp]
  else acc.dropLast

/-- The component loop of `posixpath.normpath` over an already-split path. -/
def normComps (k : Nat) (comps : List (List Char)) : List (List Char) :=
  comps.foldl (normStep k) []

/-- Slash prefix and rejoined components produced by `posixpath.normpath`
before its final empty-result check. -/
def normJoined (l : List Char) : List Char :=
  List.replicate (initialSlashes l) '/' ++
    List.intercalate ['/'] (normComps (initialSlashes l) (splitSep l))

/-- CPython `posixpath.normpath` on a character list. -/
def normpathData (l : List Char) : List Char :=
  if l = [] then ['.']
  else if normJoined l = [] then ['.']
  else normJoined l

/-- CPython `os.path.normpath` (POSIX flavour) on strings. -/
def normpath (s : String) : String := String.mk (normpathData s.data)

/-- CPython `posixpath.join` restricted to two arguments, exactly as the
sources call it: an absolute second argument discards the first. -/
def pyJoin (a b : String) : String :=
  if pyStartsWith b "/" then b
  else if a = "" ∨ pyEndsWith a "/" then a ++ b
  else a ++ "/" ++ b

/-- Fuel-driven scanner for CPython `str.replace` (left-to-right,
non-overlapping); any fuel at least the length of the scanned list gives the
replacement semantics. -/
def replFuel (pat rep : List Char) : Nat → List Char → List Char
  | 0, l => l
  | fuel + 1, l =>
    match l with
    | [] => []
    | c :: cs =>
      if pat ≠ [] ∧ pat.isPrefixOf (c :: cs) = true then
        rep ++ replFuel pat rep fuel ((c :: cs).drop pat.length)
      else c :: replFuel pat rep fuel cs

/-- CPython `str.replace` on character lists (the sources only call it with
a nonempty pattern). -/
def replData (pat rep l : List Char) : List Char := replFuel pat rep l.length l

/-- CPython `str.replace` on strings. -/
def strReplace (s pat rep : String) : String := String.mk (replData pat.data rep.data s.data)

/-- Code-point ranges of the Unicode characters accepted by CPython
`str.isdigit` (Numeric_Type Decimal or Digit), taken from CPython's Unicode
database: the decimal-digit run of every script together with the
digit-typed characters such as the super- and subscripts and circled
digits. -/
def pyDigitRanges : List (Nat × Nat) := [
  (48, 57), (178, 179), (185, 185), (1632, 1641), (1776, 1785), (1984, 1993), (2406, 2415),
  (2534, 2543), (2662, 2671), (2790, 2799), (2918, 2927), (3046, 3055), (3174, 3183), (3302,
  3311), (3430, 3439), (3558, 3567), (3664, 3673), (3792, 3801), (3872, 3881), (4160, 4169),
  (4240, 4249), (4969, 4977), (6112, 6121), (6160, 6169), (6470, 6479), (6608, 6618), (6784,
  6793), (6800, 6809), (6992, 7001), (7088, 7097), (7232, 7241), (7248, 7257), (8304, 8304),
  (8308, 8313), (8320, 8329), (9312, 9320), (9332, 9340), (9352, 9360), (9450, 9450), (9461,
  9469), (9471, 9471), (10102, 10110), (10112, 10120), (10122, 10130), (42528, 42537), (43216,
  43225), (43264, 43273), (43472, 43481), (43504, 43513), (43600, 43609), (44016, 44025),
  (65296, 65305), (66720, 66729), (68160, 68163), (68912, 68921), (69216, 69224), (69714,
  69722), (69734, 69743), (69872, 69881), (69942, 69951), (70096, 70105), (70384, 70393),
  (70736, 70745), (70864, 70873), (71248, 71257), (71360, 71369), (71472, 71481), (71904,
  71913), (72016, 72025), (72784, 72793), (73040, 73049), (73120, 73129), (92768, 92777),
  (92864, 92873), (93008, 93017), (120782, 120831), (123200, 123209), (123632, 123641),
  (125264, 125273), (127232, 127242), (130032, 130041)]

/-- Character-level test backing CPython `str.isdigit`: the character's
code point lies in one of the digit ranges. -/
def pyIsDigitChar (c : Char) : Bool :=
  pyDigitRanges.any fun r => decide (r.1 ≤ c.toNat ∧ c.toNat ≤ r.2)

/-- CPython `str.isdigit`: nonempty and every character a digit — a decimal
digit of any script or another digit-typed character such as `'²'`. -/
def pyIsDigit (s : String) : Bool := (!s.data.isEmpty) && s.data.all pyIsDigitChar

/-! ## Shared helpers of both sources -/

/-- Source `sanitize_path` (identical in src/main.py:88 and
src/main_simple.py:34): normalize, then reject when the normalized form
starts with `".."` or contains `"/.."`; `none` models the raised
`ValueError` (the spec's `PathEscape`). -/
def sanitize_path (path : String) : Option String :=
  let normalized := normpath path
  if pyStartsWith normalized ".." || pyIn "/.." normalized then none
  else some normalized

/-- Source `get_session_path` (src/main.py:94, src/main_simple.py:43). -/
def get_session_path (secret_key project_name : String) : String :=
  "/tmp/sessions/" ++ secret_key ++ "_" ++ project_name

/-- Source `login` secret-key validation (src/main.py:123,
src/main_simple.py:60): succeeds exactly when the check
`not secret_key.isdigit() or len(secret_key) != 10` does not raise. -/
def login (secret_key : String) : Bool :=
  pyIsDigit secret_key && (secret_key.length == 10)

/-! ## File-path resolution of the two sources -/

/-- Path actually opened by src/main.py `read_file` (line 215) and
`save_file` (line 231): `os.path.join(session_path, sanitize_path(path))`,
with no further check; `none` models the `ValueError` from `sanitize_path`. -/
def mainPy_file_target (secret_key project_name path : String) : Option String :=
  (sanitize_path path).map fun n => pyJoin (get_session_path secret_key project_name) n

/-- Outcome of path resolution in src/main_simple.py file routes. -/
inductive SimpleResolve where
  | pathEscape
  | invalidPath
  | ok (full : String)
deriving DecidableEq

/-- Path resolution of src/main_simple.py `get_file_content` (lines 229-234),
`save_file` and `delete_file`: join the sanitized path, then require
`full_path.startswith(session_path)` on the plain (non-canonicalized) string;
no symlink resolution is performed. -/
def mainSimple_resolve (secret_key project_name file_path : String) : SimpleResolve :=
  match sanitize_path file_path with
  | none => .pathEscape
  | some n =>
    let session_path := get_session_path secret_key project_name
    let full := pyJoin session_path n
    if pyStartsWith full session_path then .ok full else .invalidPath

/-- Modelled from the spec: canonical resolution "to a canonical absolute
form (following symlinks)". Neither source contains such a resolution step;
this definition follows the spec's words so the code's check can be compared
against it. A symlink environment maps an absolute path to its target; the
input's components are resolved left to right with one level of indirection
(enough to exhibit symlink-based escapes). -/
def canonicalResolve (env : List (String × String)) (p : String) : String :=
  ((splitSep p.data).filter fun c => decide (c ≠ [] ∧ c ≠ ['.'])).foldl
    (fun cur c =>
      let next := cur ++ "/" ++ String.mk c
      match env.lookup next with
      | some t => t
      | none => next) ""

/-! ## Archive import (upload_zip, src/main.py:154, src/main_simple.py:89) -/

/-- One archive member as the import sees it: its stored name and whether
extracting its bytes succeeds (`ok := false` models a corrupt member or an
I/O error at that entry). -/
structure ZipEntry where
  filename : String
  ok : Bool
deriving DecidableEq

/-- CPython `zipfile.ZipFile._extract_member` name sanitization (POSIX):
split the member name on the separator and drop every component that is
empty, `"."` or `".."`, then rejoin. -/
def zipSanitizeArcname (name : String) : String :=
  String.mk (List.intercalate ['/']
    ((splitSep name.data).filter fun c => decide (c ≠ [] ∧ c ≠ ['.'] ∧ c ≠ dd)))

/-- Target path CPython `zipfile` materializes a member at:
`os.path.normpath(os.path.join(dest, sanitized_arcname))`. -/
def extractTarget (dest : String) (name : String) : String :=
  normpath (pyJoin dest (zipSanitizeArcname name))

/-- CPython `ZipFile.extractall` as both sources invoke it: members are
extracted sequentially; a failing member stops the loop, leaving the members
already extracted in place. Returns the materialized target paths and
whether the whole loop succeeded. -/
def extractallModel (dest : String) : List ZipEntry → List String × Bool
  | [] => ([], true)
  | e :: rest =>
    if e.ok then
      let r := extractallModel dest rest
      (extractTarget dest e.filename :: r.1, r.2)
    else ([], false)

/-- Result of one `upload_zip` request. -/
structure UploadResult where
  written : List String
  tempCleaned : Bool
  success : Bool
deriving DecidableEq

/-- Source `upload_zip` (src/main.py:154-180, src/main_simple.py:89-129):
save the upload to a temp file, `extractall` into the session directory,
remove the temp file on every path (`finally` in main.py, both branches in
main_simple.py); `archive = none` models a container so corrupt that
`ZipFile` cannot open it. There is no per-entry containment check in either
source. -/
def upload_zip (secret_key project_name : String)
    (archive : Option (List ZipEntry)) : UploadResult :=
  match archive with
  | none => ⟨[], true, false⟩
  | some entries =>
    let r := extractallModel (get_session_path secret_key project_name) entries
    ⟨r.1, true, r.2⟩

/-! ## GitSync (clone_repo and git_commit) -/

/-- URL rewriting of src/main.py:197-198 and src/main_simple.py:148-151:
when a token is supplied (Python truthiness: nonempty) and the url starts
with `"https://"`, replace that scheme prefix by
`"https://" ++ token ++ "@"`. -/
def clone_repo_url (github_token : Option String) (repo_url : String) : String :=
  match github_token with
  | none => repo_url
  | some t =>
    if decide (t ≠ "") && pyStartsWith repo_url "https://" then
      strReplace repo_url "https://" ("https://" ++ t ++ "@")
    else repo_url

/-- Remote URL persisted in the cloned repository's on-disk configuration:
`git clone` (invoked through `Repo.clone_from` at src/main.py:201,
src/main_simple.py:154) records the transport URL it was given — here the
already-rewritten one — as remote `origin` in `.git/config`. -/
def clone_storedRemoteUrl (github_token : Option String) (repo_url : String) : String :=
  clone_repo_url github_token repo_url

/-- Log line written by src/main.py:192 — note it logs `repo_url` as
received, before the token is embedded at lines 197-198. -/
def clone_logLine (repo_url : String) : String := "Git clone started | " ++ repo_url

/-- Remote URL persisted by the push branch of src/main_simple.py
`git_commit` (lines 411-418): `origin.set_url(authenticated_url)` writes the
token-embedding URL into `.git/config` when the old URL is HTTPS. -/
def push_storedRemoteUrl (github_token originUrl : String) : String :=
  if pyStartsWith originUrl "https://" then
    strReplace originUrl "https://" ("https://" ++ github_token ++ "@")
  else originUrl

/-- Outcome of src/main.py `git_commit` (lines 260-278): stage all, commit
only when dirty, and report success either way (`noop` is the spec's
`CommitNoop`). -/
inductive PyCommitResult where
  | committed
  | noop
deriving DecidableEq

/-- src/main.py `git_commit` on a repository whose working state after
`add(A=True)` is clean (`dirty = false`) or not. -/
def mainPy_git_commit (dirty : Bool) : PyCommitResult :=
  if dirty then .committed else .noop

/-- Outcome of src/main_simple.py `git_commit` (lines 373-437). -/
inductive SimpleCommitResult where
  | committed
  | httpError (detail : String)
deriving DecidableEq

/-- src/main_simple.py `git_commit` control flow (lines 402-427): after
`add(A=True)`, the guard is `repo.is_dirty(untracked_files=True) or
repo.head.commit`. With a clean tree and an existing HEAD commit the guard
is still true, so `repo.git.commit(...)` runs on a clean tree, git exits
nonzero ("nothing to commit"), `GitCommandError` is caught and re-raised as
HTTP 500. With a clean tree and no commits yet, `repo.head.commit` itself
raises on the unborn HEAD, caught as HTTP 500. The "No changes to commit"
branch is unreachable. -/
def mainSimple_git_commit (dirty hasHeadCommit : Bool) : SimpleCommitResult :=
  if dirty then .committed
  else if hasHeadCommit then .httpError "Git error: nothing to commit"
  else .httpError "unborn HEAD"

/-! ## BroadcastHub (src/main_simple.py websocket registry) -/

/-- A realtime connection, identified abstractly. -/
abbrev Conn := Nat

/-- The module-level `websocket_sessions: Dict[str, List[WebSocket]]`
(src/main_simple.py:28), as an association list. -/
structure HubState where
  sessions : List (String × List Conn)
deriving DecidableEq

/-- Group registered for a session id; `[]` when absent, matching the
`if session_id in websocket_sessions` guards. -/
def hubGroup (st : HubState) (sid : String) : List Conn :=
  (st.sessions.lookup sid).getD []

/-- Replace the group stored under an existing session id. -/
def hubSet (st : HubState) (sid : String) (g : List Conn) : HubState :=
  ⟨st.sessions.map fun e => if e.1 = sid then (e.1, g) else e⟩

/-- Registration in `websocket_terminal` (src/main_simple.py:320-322):
create the list when absent, then append. -/
def wsConnect (st : HubState) (sid : String) (w : Conn) : HubState :=
  if (st.sessions.lookup sid).isSome then hubSet st sid (hubGroup st sid ++ [w])
  else ⟨st.sessions ++ [(sid, [w])]⟩

/-- Disconnect handling in `websocket_terminal` (src/main_simple.py:330-336):
remove the first occurrence, tolerating absence (`except ValueError`). -/
def wsDisconnect (st : HubState) (sid : String) (w : Conn) : HubState :=
  if (st.sessions.lookup sid).isSome then hubSet st sid ((hubGroup st sid).erase w)
  else st

/-- Result of one `broadcast_to_websocket` call: the connections the pass
iterated over (the group at call time), those whose send succeeded, and the
registry afterwards. -/
structure BroadcastResult where
  attempted : List Conn
  delivered : List Conn
  state : HubState
deriving DecidableEq

/-- Session branch of `broadcast_to_websocket` (src/main_simple.py:340-355):
iterate the session's group sending to each, collect the connections whose
send raised (`alive w = false`), and only after the full pass remove each
collected connection with `list.remove` (first occurrence). -/
def broadcastSession (alive : Conn → Bool) (st : HubState) (sid : String) : BroadcastResult :=
  match st.sessions.lookup sid with
  | none => ⟨[], [], st⟩
  | some group =>
    let failed := group.filter fun c => !alive c
    ⟨group, group.filter alive, hubSet st sid (failed.foldl (fun g w => g.erase w) group)⟩

/-- Fallback branch of `broadcast_to_websocket` (src/main_simple.py:356-371):
iterate every session's group, with the same collect-then-remove handling
per session. -/
def broadcastAll (alive : Conn → Bool) (st : HubState) : BroadcastResult :=
  ⟨(st.sessions.map Prod.snd).flatten,
   ((st.sessions.map Prod.snd).flatten).filter alive,
   ⟨st.sessions.map fun e =>
      (e.1, (e.2.filter fun c => !alive c).foldl (fun g w => g.erase w) e.2)⟩⟩

/-- Python truthiness of an optional string argument, as tested by
`if secret_key and project_name:`. -/
def truthy : Option String → Bool
  | none => false
  | some s => decide (s ≠ "")

/-- Source `broadcast_to_websocket` (src/main_simple.py:338-371): the
session branch runs only when both arguments are truthy; otherwise the
message goes to every connection of every session. -/
def broadcast_to_websocket (alive : Conn → Bool) (st : HubState)
    (secret_key project_name : Option String) : BroadcastResult :=
  if truthy secret_key && truthy project_name then
    broadcastSession alive st (secret_key.getD "" ++ "_" ++ project_name.getD "")
  else broadcastAll alive st

/-! ## Specification predicates -/

/-- A path component that survives normalization unchanged: nonempty and
neither `"."` nor `".."`. -/
@[reducible] def CleanComp (c : List Char) : Prop := c ≠ [] ∧ c ≠ ['.'] ∧ c ≠ dd

/-- A normalized absolute directory string `"/c1/c2/..."` built from clean,
separator-free components — the shape of a session root. -/
def NormalAbsRoot (dest : String) : Prop :=
  ∃ comps, comps ≠ [] ∧ (∀ c ∈ comps, CleanComp c ∧ '/' ∉ c) ∧
    dest.data = '/' :: List.intercalate ['/'] comps

/-- The target string lexically denotes a location inside the root: it is
the root itself, the root followed by `"/."`, or the root followed by a
separator and clean separator-free components (so no `".."` can climb back
out). -/
def LexInside (root target : String) : Prop :=
  target = root ∨ target.data = root.data ++ ['/', '.'] ∨
    ∃ comps, comps ≠ [] ∧ (∀ c ∈ comps, CleanComp c ∧ '/' ∉ c) ∧
      target.data = root.data ++ '/' :: List.intercalate ['/'] comps

/-- The raw request path contains a parent-directory component. -/
def containsParentSeg (p : String) : Bool := (splitSep p.data).contains dd

/-! ## Lemmas about split and intercalate -/

theorem subOf_pre {l₁ l₂ : List Char} (h : l₁ <+: l₂) : l₁ <:+: l₂ := by
  obtain ⟨t, ht⟩ := h
  exact ⟨[], t, by simpa using ht⟩

theorem splitOn_slashFree (l : List Char) : ∀ c ∈ l.splitOn '/', '/' ∉ c := by
  induction l with
  | nil =>
    intro c h
    simp only [List.splitOn, List.splitOnP_nil, List.mem_singleton] at h
    subst h; simp
  | cons x xs ih =>
    intro c h
    rw [List.splitOn, List.splitOnP_cons] at h
    by_cases hx : x = '/'
    · rw [if_pos (by simp [hx])] at h
      rcases List.mem_cons.mp h with h1 | h1
      · subst h1; simp
      · exact ih c h1
    · rw [if_neg (by simp [hx])] at h
      obtain ⟨h0, t0, hsplit⟩ : ∃ h0 t0, xs.splitOnP (· == '/') = h0 :: t0 := by
        cases hs : xs.splitOnP (· == '/') with
        | nil => exact absurd hs (List.splitOnP_ne_nil _ xs)
        | cons a b => exact ⟨a, b, rfl⟩
      rw [hsplit] at h
      simp only [List.modifyHead, List.mem_cons] at h
      rcases h with h1 | h1
      · subst h1
        intro hmem
        rcases List.mem_cons.mp hmem with h2 | h2
        · exact hx h2.symm
        · exact ih h0 (by rw [List.splitOn, hsplit]; exact List.mem_cons_self h0 t0) h2
      · exact ih c (by rw [List.splitOn, hsplit]; exact List.mem_cons_of_mem h0 h1)

theorem splitOn_head_pre {l h : List Char} {t : List (List Char)}
    (hs : l.splitOn '/' = h :: t) : h <+: l := by
  induction l generalizing h t with
  | nil =>
    simp only [List.splitOn, List.splitOnP_nil] at hs
    cases hs; exact List.nil_prefix
  | cons x xs ih =>
    rw [List.splitOn, List.splitOnP_cons] at hs
    by_cases hx : x = '/'
    · rw [if_pos (by simp [hx])] at hs
      cases hs; exact List.nil_prefix
    · rw [if_neg (by simp [hx])] at hs
      obtain ⟨h0, t0, hsplit⟩ : ∃ h0 t0, xs.splitOnP (· == '/') = h0 :: t0 := by
        cases hq : xs.splitOnP (· == '/') with
        | nil => exact absurd hq (List.splitOnP_ne_nil _ xs)
        | cons a b => exact ⟨a, b, rfl⟩
      rw [hsplit] at hs
      simp only [List.modifyHead] at hs
      cases hs
      exact List.cons_prefix_cons.mpr ⟨rfl, ih (by rw [List.splitOn, hsplit])⟩

theorem mem_splitOn_isSub {l c : List Char} (h : c ∈ l.splitOn '/') : c <:+: l := by
  induction l with
  | nil =>
    simp only [List.splitOn, List.splitOnP_nil, List.mem_singleton] at h
    subst h; exact List.infix_rfl
  | cons x xs ih =>
    rw [List.splitOn, List.splitOnP_cons] at h
    by_cases hx : x = '/'
    · rw [if_pos (by simp [hx])] at h
      rcases List.mem_cons.mp h with h1 | h1
      · subst h1; exact ⟨[], x :: xs, rfl⟩
      · exact List.infix_cons_iff.mpr (Or.inr (ih h1))
    · rw [if_neg (by simp [hx])] at h
      obtain ⟨h0, t0, hsplit⟩ : ∃ h0 t0, xs.splitOnP (· == '/') = h0 :: t0 := by
        cases hq : xs.splitOnP (· == '/') with
        | nil => exact absurd hq (List.splitOnP_ne_nil _ xs)
        | cons a b => exact ⟨a, b, rfl⟩
      rw [hsplit] at h
      simp only [List.modifyHead, List.mem_cons] at h
      rcases h with h1 | h1
      · subst h1
        exact subOf_pre (List.cons_prefix_cons.mpr
          ⟨rfl, splitOn_head_pre (by rw [List.splitOn, hsplit])⟩)
      · exact List.infix_cons_iff.mpr
          (Or.inr (ih (by rw [List.splitOn, hsplit]; exact List.mem_cons_of_mem h0 h1)))

theorem intercalate_cons₂ (a b : List Char) (t : List (List Char)) :
    List.intercalate ['/'] (a :: b :: t) = a ++ '/' :: List.intercalate ['/'] (b :: t) := by
  simp [List.intercalate, List.intersperse]

theorem intercalate_one (a : List Char) : List.intercalate ['/'] [a] = a := by
  simp [List.intercalate]

theorem intercalate_sep_append (l₁ l₂ : List (List Char)) (h₁ : l₁ ≠ []) (h₂ : l₂ ≠ []) :
    List.intercalate ['/'] (l₁ ++ l₂) =
      List.intercalate ['/'] l₁ ++ '/' :: List.intercalate ['/'] l₂ := by
  induction l₁ with
  | nil => exact absurd rfl h₁
  | cons a t ih =>
    cases t with
    | nil =>
      cases l₂ with
      | nil => exact absurd rfl h₂
      | cons b t2 => simp [intercalate_cons₂, intercalate_one]
    | cons a2 t2 =>
      have := ih (by simp)
      calc List.intercalate ['/'] ((a :: a2 :: t2) ++ l₂)
          = a ++ '/' :: List.intercalate ['/'] ((a2 :: t2) ++ l₂) := by
            cases l₂ with
            | nil => exact absurd rfl h₂
            | cons b t3 => simp [intercalate_cons₂]
        _ = a ++ '/' :: (List.intercalate ['/'] (a2 :: t2) ++ '/' :: List.intercalate ['/'] l₂) := by
            rw [this]
        _ = List.intercalate ['/'] (a :: a2 :: t2) ++ '/' :: List.intercalate ['/'] l₂ := by
            rw [intercalate_cons₂]; simp

theorem splitOn_ic_append (comps : List (List Char)) (rest : List Char)
    (hne : comps ≠ []) (hsf : ∀ c ∈ comps, '/' ∉ c) :
    (List.intercalate ['/'] comps ++ '/' :: rest).splitOn '/' =
      comps ++ rest.splitOn '/' := by
  induction comps with
  | nil => exact absurd rfl hne
  | cons c t ih =>
    have hc : ∀ x ∈ c, ¬((x == '/') = true) := by
      intro x hx hbeq
      exact hsf c (List.mem_cons_self c t) ((beq_iff_eq.mp hbeq) ▸ hx)
    cases t with
    | nil =>
      rw [intercalate_one, List.splitOn, List.splitOnP_first (· == '/') c hc '/' (by simp) rest]
      rfl
    | cons c2 t2 =>
      rw [intercalate_cons₂, List.append_assoc, List.cons_append, List.splitOn,
        List.splitOnP_first (· == '/') c hc '/' (by simp) _]
      have := ih (by simp) (fun d hd => hsf d (List.mem_cons_of_mem c hd))
      rw [List.splitOn] at this
      rw [this]
      rfl

/-! ## Lemmas about the normalization fold -/

theorem normStep_clean (k : Nat) (acc : List (List Char)) {c : List Char}
    (h : CleanComp c) : normStep k acc c = acc ++ [c] := by
  obtain ⟨h1, h2, h3⟩ := h
  unfold normStep
  rw [if_neg (by simp [h1, h2])]
  rw [if_pos (Or.inl h3)]

theorem foldl_normStep_clean (k : Nat) (l : List (List Char))
    (h : ∀ c ∈ l, CleanComp c) :
    ∀ acc, l.foldl (normStep k) acc = acc ++ l := by
  induction l with
  | nil => intro acc; simp
  | cons x xs ih =>
    intro acc
    rw [List.foldl_cons, normStep_clean k acc (h x (List.mem_cons_self x xs)),
      ih (fun c hc => h c (List.mem_cons_of_mem x hc)), List.append_assoc]
    rfl

theorem mem_foldl_normStep (k : Nat) :
    ∀ (l : List (List Char)) (acc : List (List Char)) (c : List Char),
      c ∈ l.foldl (normStep k) acc → c ∈ acc ∨ (c ∈ l ∧ c ≠ [] ∧ c ≠ ['.']) := by
  intro l
  induction l with
  | nil => intro acc c h; exact Or.inl h
  | cons x xs ih =>
    intro acc c h
    rw [List.foldl_cons] at h
    rcases ih (normStep k acc x) c h with hmem | ⟨hx, h1, h2⟩
    · unfold normStep at hmem
      by_cases hskip : x = [] ∨ x = ['.']
      · rw [if_pos hskip] at hmem
        exact Or.inl hmem
      · rw [if_neg hskip] at hmem
        by_cases happ : x ≠ dd ∨ (k = 0 ∧ acc = []) ∨ acc.getLast? = some dd
        · rw [if_pos happ] at hmem
          rcases List.mem_append.mp hmem with h1 | h1
          · exact Or.inl h1
          · rcases List.mem_singleton.mp h1 with rfl
            push_neg at hskip
            exact Or.inr ⟨List.mem_cons_self c xs, hskip.1, hskip.2⟩
        · rw [if_neg happ] at hmem
          exact Or.inl (List.mem_of_mem_dropLast hmem)
    · exact Or.inr ⟨List.mem_cons_of_mem x hx, h1, h2⟩

/-- The kept `".."` components of the fold output always form a prefix of
the output; everything after them is not `".."`. -/
def DDFront (l : List (List Char)) : Prop :=
  ∃ n rest, l = List.replicate n dd ++ rest ∧ dd ∉ rest

theorem ddFront_normStep (k : Nat) (acc : List (List Char)) (x : List Char)
    (h : DDFront acc) : DDFront (normStep k acc x) := by
  obtain ⟨n, rest, hacc, hdd⟩ := h
  unfold normStep
  by_cases hskip : x = [] ∨ x = ['.']
  · rw [if_pos hskip]; exact ⟨n, rest, hacc, hdd⟩
  · rw [if_neg hskip]
    by_cases happ : x ≠ dd ∨ (k = 0 ∧ acc = []) ∨ acc.getLast? = some dd
    · rw [if_pos happ]
      by_cases hxdd : x = dd
      · subst hxdd
        rcases happ with hne | ⟨_, hnil⟩ | hlast
        · exact absurd rfl hne
        · subst hnil
          exact ⟨1, [], by simp, by simp⟩
        · have hrest : rest = [] := by
            by_cases hr : rest = []
            · exact hr
            · exfalso
              rw [hacc, List.getLast?_append_of_ne_nil _ hr] at hlast
              obtain ⟨t, ht⟩ := List.getLast?_eq_some_iff.mp hlast
              exact hdd (by rw [ht]; simp)
          subst hrest
          rw [hacc, List.append_nil, ← List.replicate_succ' n dd]
          exact ⟨n + 1, [], by simp, by simp⟩
      · exact ⟨n, rest ++ [x], by rw [hacc, List.append_assoc], by
          intro hmem
          rcases List.mem_append.mp hmem with h1 | h1
          · exact hdd h1
          · exact hxdd (List.mem_singleton.mp h1).symm⟩
    · rw [if_neg happ]
      by_cases hr : rest = []
      · subst hr
        rw [hacc, List.append_nil]
        cases n with
        | zero => exact ⟨0, [], by simp, by simp⟩
        | succ m =>
          rw [List.replicate_succ' m dd, List.dropLast_concat]
          exact ⟨m, [], by simp, by simp⟩
      · rw [hacc, List.dropLast_append_of_ne_nil _ hr]
        exact ⟨n, rest.dropLast, rfl, fun hm => hdd (List.mem_of_mem_dropLast hm)⟩

theorem ddFront_normComps (k : Nat) (l : List (List Char)) : DDFront (normComps k l) := by
  unfold normComps
  have : ∀ (m : List (List Char)) (acc : List (List Char)),
      DDFront acc → DDFront (m.foldl (normStep k) acc) := by
    intro m
    induction m with
    | nil => intro acc h; exact h
    | cons x xs ih =>
      intro acc h
      exact ih (normStep k acc x) (ddFront_normStep k acc x h)
  exact this l [] ⟨0, [], by simp, by simp⟩

/-! ## Lemmas about substring containment around separators -/

theorem pre_of_pre_append_sep {t : List Char} :
    ∀ (a b : List Char), '/' ∉ t → t <+: a ++ '/' :: b → t <+: a := by
  induction t with
  | nil => intro a b _ _; exact List.nil_prefix
  | cons y t2 ih =>
    intro a b hsf h
    cases a with
    | nil =>
      obtain ⟨rfl, _⟩ := List.cons_prefix_cons.mp h
      exact absurd (List.mem_cons_self '/' t2) hsf
    | cons x a2 =>
      obtain ⟨rfl, htail⟩ := List.cons_prefix_cons.mp h
      exact List.cons_prefix_cons.mpr
        ⟨rfl, ih a2 b (fun hm => hsf (List.mem_cons_of_mem y hm)) htail⟩

theorem isInfix_sep_split {t : List Char} (htne : t ≠ []) (hsf : '/' ∉ t) :
    ∀ (a b : List Char), t <:+: a ++ '/' :: b → t <:+: a ∨ t <:+: b := by
  intro a
  induction a with
  | nil =>
    intro b h
    rcases List.infix_cons_iff.mp h with h1 | h1
    · cases t with
      | nil => exact absurd rfl htne
      | cons y t2 =>
        obtain ⟨rfl, _⟩ := List.cons_prefix_cons.mp h1
        exact absurd (List.mem_cons_self '/' t2) hsf
    · exact Or.inr h1
  | cons x a2 ih =>
    intro b h
    rw [List.cons_append] at h
    rcases List.infix_cons_iff.mp h with h1 | h1
    · exact Or.inl (subOf_pre (pre_of_pre_append_sep (x :: a2) b hsf h1))
    · rcases ih b h1 with h2 | h2
      · exact Or.inl (List.infix_cons_iff.mpr (Or.inr h2))
      · exact Or.inr h2

theorem isInfix_intercalate {t : List Char} (htne : t ≠ []) (hsf : '/' ∉ t) :
    ∀ (comps : List (List Char)), t <:+: List.intercalate ['/'] comps →
      ∃ c ∈ comps, t <:+: c := by
  intro comps
  induction comps with
  | nil =>
    intro h
    rw [show List.intercalate ['/'] ([] : List (List Char)) = [] from by
      simp [List.intercalate]] at h
    exact absurd (List.eq_nil_of_infix_nil h) htne
  | cons c t2 ih =>
    cases t2 with
    | nil =>
      intro h
      rw [intercalate_one] at h
      exact ⟨c, List.mem_cons_self c [], h⟩
    | cons c2 t3 =>
      intro h
      rw [intercalate_cons₂] at h
      rcases isInfix_sep_split htne hsf c _ h with h1 | h1
      · exact ⟨c, List.mem_cons_self c (c2 :: t3), h1⟩
      · obtain ⟨d, hd, hdt⟩ := ih h1
        exact ⟨d, List.mem_cons_of_mem c hd, hdt⟩

theorem isInfix_replicate_strip {t : List Char} (htne : t ≠ []) (hsf : '/' ∉ t) :
    ∀ (k : Nat) (rest : List Char), t <:+: List.replicate k '/' ++ rest → t <:+: rest := by
  intro k
  induction k with
  | zero => intro rest h; simpa using h
  | succ m ih =>
    intro rest h
    rw [List.replicate_succ, List.cons_append] at h
    rcases List.infix_cons_iff.mp h with h1 | h1
    · cases t with
      | nil => exact absurd rfl htne
      | cons y t2 =>
        obtain ⟨rfl, _⟩ := List.cons_prefix_cons.mp h1
        exact absurd (List.mem_cons_self '/' t2) hsf
    · exact ih rest h1

/-! ## String-level glue -/

theorem mk_data (s : String) : String.mk s.data = s := rfl

theorem pyStartsWith_true_iff {s pre : String} :
    pyStartsWith s pre = true ↔ pre.data <+: s.data := by simp [pyStartsWith]

theorem pyStartsWith_false_iff {s pre : String} :
    pyStartsWith s pre = false ↔ ¬ pre.data <+: s.data := by simp [pyStartsWith]

theorem pyEndsWith_false_iff {s suf : String} :
    pyEndsWith s suf = false ↔ ¬ suf.data <:+ s.data := by simp [pyEndsWith]

theorem pyIn_true_iff {sub s : String} :
    pyIn sub s = true ↔ sub.data <:+: s.data := by simp [pyIn]

theorem pyIn_false_iff {sub s : String} :
    pyIn sub s = false ↔ ¬ sub.data <:+: s.data := by simp [pyIn]

/-! ## Lemmas about initialSlashes and normpath -/

theorem initialSlashes_pos {l : List Char} (h : ['/'] <+: l) :
    1 ≤ initialSlashes l := by
  have htake : l.take 1 = ['/'] := by
    rw [List.prefix_iff_eq_take] at h
    exact h.symm
  unfold initialSlashes
  by_cases h1 : l.take 3 = ['/', '/', '/']
  · rw [if_pos h1]
  · rw [if_neg h1]
    by_cases h2 : l.take 2 = ['/', '/']
    · rw [if_pos h2]; omega
    · rw [if_neg h2, if_pos htake]

theorem initialSlashes_eq_zero {l : List Char} (h : ¬ ['/'] <+: l) :
    initialSlashes l = 0 := by
  have htake : l.take 1 ≠ ['/'] := by
    intro ht
    exact h (List.prefix_iff_eq_take.mpr ht.symm)
  have h1 : l.take 3 ≠ ['/', '/', '/'] := by
    intro hh
    apply htake
    have ht : l.take 1 = (l.take 3).take 1 := by simp [List.take_take]
    rw [ht, hh]
    rfl
  have h2 : l.take 2 ≠ ['/', '/'] := by
    intro hh
    apply htake
    have ht : l.take 1 = (l.take 2).take 1 := by simp [List.take_take]
    rw [ht, hh]
    rfl
  unfold initialSlashes
  rw [if_neg h1, if_neg h2, if_neg htake]

theorem initialSlashes_cons₂ {y : Char} (t : List Char) (hy : y ≠ '/') :
    initialSlashes ('/' :: y :: t) = 1 := by
  unfold initialSlashes
  rw [if_neg (by simp [hy]), if_neg (by simp [hy]), if_pos (by simp)]

theorem ic_cons_front (c : List Char) (l : List (List Char)) :
    ∃ r, List.intercalate ['/'] (c :: l) = c ++ r := by
  cases l with
  | nil => exact ⟨[], by rw [intercalate_one, List.append_nil]⟩
  | cons c2 t => exact ⟨'/' :: List.intercalate ['/'] (c2 :: t), intercalate_cons₂ c c2 t⟩

theorem not_slash_pre_of_front {c₀ : List Char} (r : List Char)
    (h0 : c₀ ≠ []) (hsf : '/' ∉ c₀) : ¬ ['/'] <+: c₀ ++ r := by
  cases c₀ with
  | nil => exact absurd rfl h0
  | cons y c2 =>
    intro h
    obtain ⟨rfl, _⟩ := List.cons_prefix_cons.mp h
    exact hsf (List.mem_cons_self '/' c2)

theorem ic_last_not_sep (comps : List (List Char)) (hne : comps ≠ [])
    (h : ∀ c ∈ comps, c ≠ [] ∧ '/' ∉ c) :
    ∃ pre z, List.intercalate ['/'] comps = pre ++ [z] ∧ z ≠ '/' := by
  induction comps with
  | nil => exact absurd rfl hne
  | cons c t ih =>
    cases t with
    | nil =>
      obtain ⟨hc, hsf⟩ := h c (List.mem_cons_self c [])
      refine ⟨c.dropLast, c.getLast hc, ?_, ?_⟩
      · rw [intercalate_one, List.dropLast_append_getLast hc]
      · intro hz
        exact hsf (hz ▸ List.getLast_mem hc)
    | cons c2 t2 =>
      obtain ⟨pre, z, hic, hz⟩ := ih (by simp)
        (fun d hd => h d (List.mem_cons_of_mem c hd))
      refine ⟨c ++ '/' :: pre, z, ?_, hz⟩
      rw [intercalate_cons₂, hic]
      simp

theorem not_slash_suffix_concat (X : List Char) {z : Char} (hz : z ≠ '/') :
    ¬ ['/'] <:+ X ++ [z] := by
  intro h
  obtain ⟨s, hs⟩ := h
  have h1 : (s ++ ['/']).getLast? = some '/' := List.getLast?_concat s
  have h2 : (X ++ [z]).getLast? = some z := List.getLast?_concat X
  rw [hs, h2] at h1
  exact hz (Option.some.inj h1)

theorem normpathData_abs {l : List Char} (h : ['/'] <+: l) :
    ['/'] <+: normpathData l := by
  have hne : l ≠ [] := by
    intro hl
    subst hl
    simpa using List.eq_nil_of_prefix_nil h
  have hk := initialSlashes_pos h
  have hrep : ∃ m, List.replicate (initialSlashes l) '/' = '/' :: List.replicate m '/' := by
    cases hki : initialSlashes l with
    | zero => omega
    | succ m => exact ⟨m, by rw [List.replicate_succ]⟩
  obtain ⟨m, hm⟩ := hrep
  have hj : ['/'] <+: normJoined l := by
    unfold normJoined
    rw [hm, List.cons_append]
    exact List.cons_prefix_cons.mpr ⟨rfl, List.nil_prefix⟩
  have hjne : normJoined l ≠ [] := by
    intro hj0
    rw [hj0] at hj
    simpa using List.eq_nil_of_prefix_nil hj
  unfold normpathData
  rw [if_neg hne, if_neg hjne]
  exact hj

theorem dd_not_isInfix_normpathData {l : List Char} (h : ¬ dd <:+: l) :
    ¬ dd <:+: normpathData l := by
  have hddne : dd ≠ [] := by simp [dd]
  have hddsf : '/' ∉ dd := by simp [dd]
  intro hinf
  unfold normpathData at hinf
  by_cases hl : l = []
  · rw [if_pos hl] at hinf
    have := hinf.length_le
    simp [dd] at this
  · rw [if_neg hl] at hinf
    by_cases hj : normJoined l = []
    · rw [if_pos hj] at hinf
      have := hinf.length_le
      simp [dd] at this
    · rw [if_neg hj] at hinf
      unfold normJoined at hinf
      have h1 := isInfix_replicate_strip hddne hddsf _ _ hinf
      obtain ⟨c, hc, hcdt⟩ := isInfix_intercalate hddne hddsf _ h1
      rcases mem_foldl_normStep _ _ _ _ hc with hmem | ⟨hmem, _, _⟩
      · exact absurd hmem (List.not_mem_nil c)
      · exact h (hcdt.trans (mem_splitOn_isSub hmem))

/-! ## Computation lemmas feeding the containment results -/

theorem splitOn_cons_sep (rest : List Char) :
    ('/' :: rest).splitOn '/' = [] :: rest.splitOn '/' := by
  rw [List.splitOn, List.splitOnP_cons, if_pos (by simp)]
  rfl

theorem normStep_nilcomp (k : Nat) (acc : List (List Char)) :
    normStep k acc [] = acc := by
  unfold normStep
  rw [if_pos (Or.inl rfl)]

theorem normComps_cons_nil (k : Nat) (l : List (List Char)) :
    normComps k ([] :: l) = normComps k l := by
  unfold normComps
  rw [List.foldl_cons, normStep_nilcomp]

theorem normComps_clean_concat_nil (k : Nat) (comps : List (List Char))
    (h : ∀ c ∈ comps, CleanComp c) :
    normComps k (comps ++ [[]]) = comps := by
  unfold normComps
  rw [List.foldl_append, foldl_normStep_clean k comps h []]
  simp [normStep_nilcomp]

theorem normComps_clean_all (k : Nat) (comps : List (List Char))
    (h : ∀ c ∈ comps, CleanComp c) :
    normComps k comps = comps := by
  unfold normComps
  rw [foldl_normStep_clean k comps h []]
  rfl

/-- Joining a normalized absolute root with a string of clean separator-free
components and re-normalizing reproduces the root followed by those
components; with no components it reproduces the root itself. This is the
heart of the zip-slip containment analysis. -/
theorem extractTarget_lexInside (dest name : String) (h : NormalAbsRoot dest) :
    LexInside dest (extractTarget dest name) := by
  obtain ⟨comps, hcne, hclean, hdata⟩ := h
  have hcclean : ∀ c ∈ comps, CleanComp c := fun c hc => (hclean c hc).1
  have hcsf : ∀ c ∈ comps, '/' ∉ c := fun c hc => (hclean c hc).2
  have hf : ∀ c ∈ (splitSep name.data).filter
      (fun c => decide (c ≠ [] ∧ c ≠ ['.'] ∧ c ≠ dd)), CleanComp c := by
    intro c hc
    have hp : c ≠ [] ∧ c ≠ ['.'] ∧ c ≠ dd := of_decide_eq_true (List.mem_filter.mp hc).2
    exact hp
  have hfsf : ∀ c ∈ (splitSep name.data).filter
      (fun c => decide (c ≠ [] ∧ c ≠ ['.'] ∧ c ≠ dd)), '/' ∉ c := by
    intro c hc
    exact splitOn_slashFree name.data c (List.mem_filter.mp hc).1
  have harcdata : (zipSanitizeArcname name).data = List.intercalate ['/']
      ((splitSep name.data).filter (fun c => decide (c ≠ [] ∧ c ≠ ['.'] ∧ c ≠ dd))) := rfl
  have harcns : ¬ ['/'] <+: (zipSanitizeArcname name).data := by
    rw [harcdata]
    cases hfc : (splitSep name.data).filter
        (fun c => decide (c ≠ [] ∧ c ≠ ['.'] ∧ c ≠ dd)) with
    | nil =>
      intro hpre
      rw [show List.intercalate ['/'] ([] : List (List Char)) = [] from by
        simp [List.intercalate]] at hpre
      simpa using hpre.length_le
    | cons f0 fs =>
      obtain ⟨r, hr⟩ := ic_cons_front f0 fs
      rw [hr]
      exact not_slash_pre_of_front r
        (hf f0 (by rw [hfc]; exact List.mem_cons_self f0 fs)).1
        (hfsf f0 (by rw [hfc]; exact List.mem_cons_self f0 fs))
  have hdne : dest ≠ "" := by
    intro h0
    have hd0 : dest.data = [] := by rw [h0]
    rw [hdata] at hd0
    simp at hd0
  have hdend : ¬ ("/" : String).data <:+ dest.data := by
    obtain ⟨pre, z, hic, hz⟩ := ic_last_not_sep comps hcne
      (fun c hc => ⟨(hclean c hc).1.1, (hclean c hc).2⟩)
    rw [hdata, hic, show ('/' :: (pre ++ [z])) = ('/' :: pre) ++ [z] from by simp]
    exact not_slash_suffix_concat ('/' :: pre) hz
  have hjoin : pyJoin dest (zipSanitizeArcname name) =
      dest ++ "/" ++ zipSanitizeArcname name := by
    unfold pyJoin
    rw [if_neg (by rw [pyStartsWith_true_iff]; exact harcns),
      if_neg (not_or.mpr ⟨hdne, by simp only [pyEndsWith, decide_eq_true_eq]; exact hdend⟩)]
  have hLdata : (dest ++ "/" ++ zipSanitizeArcname name).data =
      '/' :: (List.intercalate ['/'] comps ++ '/' :: (zipSanitizeArcname name).data) := by
    rw [String.data_append, String.data_append, hdata]
    simp
  unfold extractTarget
  rw [hjoin]
  unfold normpath
  cases hfc : (splitSep name.data).filter
      (fun c => decide (c ≠ [] ∧ c ≠ ['.'] ∧ c ≠ dd)) with
  | nil =>
    have harcnil : (zipSanitizeArcname name).data = [] := by
      rw [harcdata, hfc]
      simp [List.intercalate]
    have hL2 : (dest ++ "/" ++ zipSanitizeArcname name).data =
        '/' :: (List.intercalate ['/'] comps ++ ['/']) := by
      rw [hLdata, harcnil]
    obtain ⟨c0, cs, rfl⟩ : ∃ c0 cs, comps = c0 :: cs := by
      cases comps with
      | nil => exact absurd rfl hcne
      | cons a b => exact ⟨a, b, rfl⟩
    obtain ⟨y, c0t, rfl⟩ : ∃ y c0t, c0 = y :: c0t := by
      cases c0 with
      | nil => exact absurd rfl (hcclean _ (List.mem_cons_self _ cs)).1
      | cons a b => exact ⟨a, b, rfl⟩
    have hy : y ≠ '/' := by
      intro hy
      exact (hcsf _ (List.mem_cons_self _ cs)) (hy ▸ List.mem_cons_self y c0t)
    obtain ⟨r, hr⟩ := ic_cons_front (y :: c0t) cs
    have hshape : (dest ++ "/" ++ zipSanitizeArcname name).data =
        '/' :: y :: (c0t ++ r ++ ['/']) := by
      rw [hL2, hr]
      simp
    have hinit : initialSlashes (dest ++ "/" ++ zipSanitizeArcname name).data = 1 := by
      rw [hshape]
      exact initialSlashes_cons₂ _ hy
    have hsplit : splitSep (dest ++ "/" ++ zipSanitizeArcname name).data =
        [] :: ((y :: c0t) :: cs ++ [[]]) := by
      show (dest ++ "/" ++ zipSanitizeArcname name).data.splitOn '/' = _
      rw [hL2, splitOn_cons_sep, splitOn_ic_append _ _ hcne hcsf]
      rfl
    have hnc : normComps 1 (splitSep (dest ++ "/" ++ zipSanitizeArcname name).data) =
        (y :: c0t) :: cs := by
      rw [hsplit, normComps_cons_nil, normComps_clean_concat_nil 1 _ hcclean]
    have hjoined : normJoined (dest ++ "/" ++ zipSanitizeArcname name).data = dest.data := by
      unfold normJoined
      rw [hinit, hnc, hdata]
      rfl
    left
    show String.mk (normpathData (dest ++ "/" ++ zipSanitizeArcname name).data) = dest
    have hnorm : normpathData (dest ++ "/" ++ zipSanitizeArcname name).data = dest.data := by
      unfold normpathData
      rw [if_neg (by rw [hL2]; simp), if_neg (by rw [hjoined, hdata]; simp), hjoined]
    rw [hnorm]
  | cons f0 fs =>
    right; right
    refine ⟨f0 :: fs, by simp, ?_, ?_⟩
    · intro c hc
      exact ⟨hf c (by rw [hfc]; exact hc), hfsf c (by rw [hfc]; exact hc)⟩
    have harcfs : (zipSanitizeArcname name).data = List.intercalate ['/'] (f0 :: fs) := by
      rw [harcdata, hfc]
    obtain ⟨c0, cs, rfl⟩ : ∃ c0 cs, comps = c0 :: cs := by
      cases comps with
      | nil => exact absurd rfl hcne
      | cons a b => exact ⟨a, b, rfl⟩
    obtain ⟨y, c0t, rfl⟩ : ∃ y c0t, c0 = y :: c0t := by
      cases c0 with
      | nil => exact absurd rfl (hcclean _ (List.mem_cons_self _ cs)).1
      | cons a b => exact ⟨a, b, rfl⟩
    have hy : y ≠ '/' := by
      intro hy
      exact (hcsf _ (List.mem_cons_self _ cs)) (hy ▸ List.mem_cons_self y c0t)
    obtain ⟨r, hr⟩ := ic_cons_front (y :: c0t) cs
    have hshape : (dest ++ "/" ++ zipSanitizeArcname name).data =
        '/' :: y :: (c0t ++ r ++ '/' :: List.intercalate ['/'] (f0 :: fs)) := by
      rw [hLdata, hr, harcfs]
      simp
    have hinit : initialSlashes (dest ++ "/" ++ zipSanitizeArcname name).data = 1 := by
      rw [hshape]
      exact initialSlashes_cons₂ _ hy
    have hsplit : splitSep (dest ++ "/" ++ zipSanitizeArcname name).data =
        [] :: ((y :: c0t) :: cs ++ f0 :: fs) := by
      show (dest ++ "/" ++ zipSanitizeArcname name).data.splitOn '/' = _
      rw [hLdata, harcfs, splitOn_cons_sep, splitOn_ic_append _ _ hcne hcsf,
        List.splitOn_intercalate (f0 :: fs) '/'
          (fun c hc => hfsf c (by rw [hfc]; exact hc)) (by simp)]
    have hall : ∀ c ∈ (y :: c0t) :: cs ++ f0 :: fs, CleanComp c := by
      intro c hc
      rcases List.mem_append.mp hc with h1 | h1
      · exact hcclean c h1
      · exact hf c (by rw [hfc]; exact h1)
    have hnc : normComps 1 (splitSep (dest ++ "/" ++ zipSanitizeArcname name).data) =
        (y :: c0t) :: cs ++ f0 :: fs := by
      rw [hsplit, normComps_cons_nil, normComps_clean_all 1 _ hall]
    have hjoined : normJoined (dest ++ "/" ++ zipSanitizeArcname name).data =
        dest.data ++ '/' :: List.intercalate ['/'] (f0 :: fs) := by
      unfold normJoined
      rw [hinit, hnc, intercalate_sep_append _ _ (by simp) (by simp), hdata]
      simp
    show (String.mk (normpathData (dest ++ "/" ++ zipSanitizeArcname name).data)).data = _
    unfold normpathData
    rw [if_neg (by rw [hLdata]; simp), if_neg (by rw [hjoined, hdata]; simp), hjoined]

theorem get_session_path_ne (secret_key project_name : String) :
    get_session_path secret_key project_name ≠ "" := by
  intro h
  have hd : (get_session_path secret_key project_name).data = [] := by rw [h]
  unfold get_session_path at hd
  rw [String.data_append, String.data_append, String.data_append] at hd
  have h1 := (List.append_eq_nil.mp hd).1
  have h2 := (List.append_eq_nil.mp h1).1
  have h3 := (List.append_eq_nil.mp h2).1
  exact absurd h3 (by decide)

/-- A sanitized relative path joined onto a session root stays lexically
inside the root: the accepted normalization is `"."` or a sequence of
clean separator-free components, so the joined string cannot climb out. -/
theorem sanitize_relative_lexInside (sess p n : String)
    (hs : sanitize_path p = some n)
    (hrel : pyStartsWith p "/" = false)
    (hsne : sess ≠ "")
    (hsend : pyEndsWith sess "/" = false) :
    LexInside sess (pyJoin sess n) := by
  have hrelp : ¬ ['/'] <+: p.data := by
    have := pyStartsWith_false_iff.mp hrel
    exact this
  have hk : initialSlashes p.data = 0 := initialSlashes_eq_zero hrelp
  rw [show sanitize_path p = if (pyStartsWith (normpath p) ".." ||
    pyIn "/.." (normpath p)) = true then none else some (normpath p) from rfl] at hs
  cases hgb : (pyStartsWith (normpath p) ".." || pyIn "/.." (normpath p)) with
  | true =>
    rw [hgb] at hs
    simp at hs
  | false =>
    rw [hgb] at hs
    simp only [Bool.false_eq_true, if_false, Option.some.injEq] at hs
    have hjoinrel : ∀ (m : String), m.data = ['.'] ∨
        (∃ comps, comps ≠ [] ∧ (∀ c ∈ comps, CleanComp c ∧ '/' ∉ c) ∧
          m.data = List.intercalate ['/'] comps ∧ ¬ ['/'] <+: m.data) →
        LexInside sess (pyJoin sess m) := by
      intro m hm
      have hmns : ¬ ['/'] <+: m.data := by
        rcases hm with h1 | ⟨comps, _, _, _, h2⟩
        · rw [h1]
          intro hc
          exact absurd (List.cons_prefix_cons.mp hc).1 (by decide)
        · exact h2
      have hjoin : pyJoin sess m = sess ++ "/" ++ m := by
        unfold pyJoin
        rw [if_neg (by rw [pyStartsWith_true_iff]; exact hmns),
          if_neg (not_or.mpr ⟨hsne, by rw [hsend]; simp⟩)]
      rw [hjoin]
      rcases hm with h1 | ⟨comps, hcne, hclean, h2, _⟩
      · right; left
        rw [String.data_append, String.data_append, h1]
        simp
      · right; right
        refine ⟨comps, hcne, hclean, ?_⟩
        rw [String.data_append, String.data_append, h2]
        simp
    by_cases hp : p.data = []
    · apply hjoinrel
      left
      rw [← hs]
      show (normpathData p.data) = ['.']
      rw [hp]
      rfl
    · obtain ⟨m0, rest, hout, hddr⟩ := ddFront_normComps 0 (splitSep p.data)
      have hm0 : m0 = 0 := by
        by_contra hm
        obtain ⟨m1, rfl⟩ : ∃ m1, m0 = m1 + 1 := ⟨m0 - 1, by omega⟩
        rw [List.replicate_succ, List.cons_append] at hout
        obtain ⟨r, hr⟩ := ic_cons_front dd (List.replicate m1 dd ++ rest)
        have hjne : normJoined p.data ≠ [] := by
          unfold normJoined
          rw [hk, hout]
          simp only [List.replicate_zero, List.nil_append]
          rw [hr]
          simp [dd]
        have hnd : (normpath p).data = normJoined p.data := by
          show normpathData p.data = _
          unfold normpathData
          rw [if_neg hp, if_neg hjne]
        have hpre : (".." : String).data <+: (normpath p).data := by
          rw [hnd]
          unfold normJoined
          rw [hk, hout]
          simp only [List.replicate_zero, List.nil_append]
          rw [hr]
          exact List.prefix_append dd r
        have : pyStartsWith (normpath p) ".." = true := pyStartsWith_true_iff.mpr hpre
        rw [this] at hgb
        simp at hgb
      subst hm0
      rw [List.replicate_zero, List.nil_append] at hout
      cases hoc : rest with
      | nil =>
        apply hjoinrel
        left
        rw [← hs]
        show (normpathData p.data) = ['.']
        unfold normpathData
        rw [if_neg hp, if_pos ?_]
        unfold normJoined
        rw [hk, hout, hoc]
        simp [List.intercalate]
      | cons o0 os =>
        have hcl : ∀ c ∈ rest, CleanComp c ∧ '/' ∉ c := by
          intro c hc
          have hc2 : c ∈ normComps 0 (splitSep p.data) := by rw [hout]; exact hc
          rcases mem_foldl_normStep 0 _ _ _ hc2 with hmem | ⟨hmem, h1, h2⟩
          · exact absurd hmem (List.not_mem_nil c)
          · refine ⟨⟨h1, h2, ?_⟩, splitOn_slashFree p.data c hmem⟩
            intro hcdd
            exact hddr (hcdd ▸ hc)
        have hjne : normJoined p.data ≠ [] := by
          unfold normJoined
          rw [hk, hout, hoc]
          simp only [List.replicate_zero, List.nil_append]
          obtain ⟨r, hr⟩ := ic_cons_front o0 os
          rw [hr]
          intro hnil
          exact (hcl o0 (by rw [hoc]; exact List.mem_cons_self o0 os)).1.1
            (List.append_eq_nil.mp hnil).1
        have hnd : n.data = List.intercalate ['/'] rest := by
          rw [← hs]
          show normpathData p.data = _
          unfold normpathData
          rw [if_neg hp, if_neg hjne]
          unfold normJoined
          rw [hk, hout]
          rfl
        apply hjoinrel
        right
        refine ⟨rest, by rw [hoc]; simp, hcl, hnd, ?_⟩
        rw [hnd, hoc]
        obtain ⟨r, hr⟩ := ic_cons_front o0 os
        rw [hr]
        exact not_slash_pre_of_front r
          (hcl o0 (by rw [hoc]; exact List.mem_cons_self o0 os)).1.1
          (hcl o0 (by rw [hoc]; exact List.mem_cons_self o0 os)).2

/-! ## Helper lemmas for the git URL rewriting -/

theorem replFuel_eq_of_le (pat rep : List Char) :
    ∀ (f : Nat) (l : List Char), l.length ≤ f →
      replFuel pat rep f l = replFuel pat rep l.length l := by
  intro f
  induction f using Nat.strong_induction_on with
  | _ f ih =>
    intro l hlen
    match f, l with
    | 0, l =>
      have : l = [] := List.length_eq_zero.mp (Nat.le_zero.mp hlen)
      subst this
      rfl
    | f + 1, [] => rfl
    | f + 1, c :: cs =>
      simp only [List.length_cons] at hlen
      rw [show (c :: cs).length = cs.length + 1 from rfl]
      simp only [replFuel]
      by_cases hg : pat ≠ [] ∧ pat.isPrefixOf (c :: cs) = true
      · rw [if_pos hg, if_pos hg]
        have hpat1 : 1 ≤ pat.length := by
          cases pat with
          | nil => exact absurd rfl hg.1
          | cons a b => simp
        have hdrop : ((c :: cs).drop pat.length).length ≤ f := by
          rw [List.length_drop]
          simp only [List.length_cons]
          omega
        have hdrop2 : ((c :: cs).drop pat.length).length ≤ cs.length := by
          rw [List.length_drop]
          simp only [List.length_cons]
          omega
        rw [ih f (by omega) _ hdrop, ih cs.length (by omega) _ hdrop2]
      · rw [if_neg hg, if_neg hg]
        rw [ih f (by omega) cs (by omega), ih cs.length (by omega) cs (by omega)]

theorem replData_front (pat rep rest : List Char) (hpat : pat ≠ []) :
    replData pat rep (pat ++ rest) = rep ++ replData pat rep rest := by
  cases pat with
  | nil => exact absurd rfl hpat
  | cons pc pt =>
    unfold replData
    have hlen : ((pc :: pt) ++ rest).length = (pt.length + rest.length) + 1 := by
      simp only [List.length_append, List.length_cons]
      omega
    rw [hlen]
    rw [show (pc :: pt) ++ rest = pc :: (pt ++ rest) from rfl]
    simp only [replFuel]
    rw [if_pos ⟨hpat, List.isPrefixOf_iff_prefix.mpr
      (List.cons_prefix_cons.mpr ⟨rfl, List.prefix_append pt rest⟩)⟩]
    congr 1
    rw [show pc :: (pt ++ rest) = (pc :: pt) ++ rest from rfl, List.drop_left]
    exact replFuel_eq_of_le (pc :: pt) rep _ rest (by omega)

/-! ## Helper lemmas for absolute paths (main.py join behaviour) -/

theorem pyJoin_abs (a b : String) (h : pyStartsWith b "/" = true) :
    pyJoin a b = b := by
  unfold pyJoin
  rw [if_pos h]

/-- An absolute path with no `".."` substring passes `sanitize_path`
unchanged up to normalization, and its normalization is still absolute. -/
theorem sanitize_path_abs_accept (p : String)
    (habs : pyStartsWith p "/" = true) (hno : pyIn ".." p = false) :
    sanitize_path p = some (normpath p) ∧ pyStartsWith (normpath p) "/" = true := by
  have hno' : ¬ dd <:+: p.data := by
    have h1 := pyIn_false_iff.mp hno
    exact h1
  have hnd : ¬ dd <:+: normpathData p.data := dd_not_isInfix_normpathData hno'
  have habs' : ['/'] <+: p.data := pyStartsWith_true_iff.mp habs
  have hnabs : ['/'] <+: normpathData p.data := normpathData_abs habs'
  have hg1 : pyStartsWith (normpath p) ".." = false := by
    rw [pyStartsWith_false_iff]
    intro hpre
    exact hnd (subOf_pre hpre)
  have hg2 : pyIn "/.." (normpath p) = false := by
    rw [pyIn_false_iff]
    intro hinf
    exact hnd ((by decide : dd <:+: ['/', '.', '.']).trans hinf)
  refine ⟨?_, pyStartsWith_true_iff.mpr hnabs⟩
  rw [show sanitize_path p = if (pyStartsWith (normpath p) ".." ||
    pyIn "/.." (normpath p)) = true then none else some (normpath p) from rfl]
  rw [hg1, hg2]
  rfl

/-! ## Helper lemmas for the broadcast hub -/

theorem foldl_erase_eq_filter :
    ∀ (fs g : List Conn), g.Nodup →
      fs.foldl (fun acc w => acc.erase w) g = g.filter (fun c => decide (c ∉ fs)) := by
  intro fs
  induction fs with
  | nil => intro g _; simp
  | cons f fs2 ih =>
    intro g hnd
    rw [List.foldl_cons, ih (g.erase f) (hnd.erase f), hnd.erase_eq_filter f,
      List.filter_filter]
    apply List.filter_congr
    intro x _
    by_cases h1 : x = f
    · simp [h1]
    · by_cases h2 : x ∈ fs2 <;> simp [h1, h2]

theorem failed_removal_eq_filter (alive : Conn → Bool) (g : List Conn) (hnd : g.Nodup) :
    (g.filter fun c => !alive c).foldl (fun acc w => acc.erase w) g = g.filter alive := by
  rw [foldl_erase_eq_filter _ g hnd]
  apply List.filter_congr
  intro x hx
  by_cases ha : alive x
  · simp [List.mem_filter, ha]
  · simp [List.mem_filter, hx, ha]

theorem lookup_map_replace (l : List (String × List Conn)) (sid : String) (g : List Conn)
    (h : (l.lookup sid).isSome) :
    ((l.map fun e => if e.1 = sid then (e.1, g) else e).lookup sid) = some g := by
  induction l with
  | nil => simp at h
  | cons e t ih =>
    obtain ⟨k, v⟩ := e
    by_cases he : k = sid
    · rw [List.map_cons]
      have hmap : (if (k, v).1 = sid then ((k, v).1, g) else (k, v)) = (k, g) := by
        simp [he]
      rw [hmap, List.lookup_cons]
      simp [he]
    · rw [List.map_cons]
      have hmap : (if (k, v).1 = sid then ((k, v).1, g) else (k, v)) = (k, v) := by
        simp [he]
      have hbeq : (sid == k) = false := beq_eq_false_iff_ne.mpr (fun hh => he hh.symm)
      rw [hmap]
      simp only [List.lookup_cons, hbeq]
      apply ih
      simp only [List.lookup_cons, hbeq] at h
      exact h

theorem hubGroup_hubSet (st : HubState) (sid : String) (g : List Conn)
    (h : (st.sessions.lookup sid).isSome) :
    hubGroup (hubSet st sid g) sid = g := by
  unfold hubGroup hubSet
  rw [lookup_map_replace st.sessions sid g h]
  rfl

theorem hubGroup_wsDisconnect (st : HubState) (sid : String) (w : Conn)
    (h : (st.sessions.lookup sid).isSome) :
    hubGroup (wsDisconnect st sid w) sid = (hubGroup st sid).erase w := by
  unfold wsDisconnect
  rw [if_pos h]
  exact hubGroup_hubSet st sid _ h

/-! ## Claim C1 -/

/-- C1, counterexample: cloning the HTTPS url with a supplied token stores
the token in plaintext in the remote URL persisted in the repository's
on-disk configuration, contradicting the claim that the stored git remote
configuration contains no plaintext token. -/
theorem c1_stored_remote_contains_token :
    clone_storedRemoteUrl (some "ghp_SECRET") "https://github.com/u/r.git" =
      "https://ghp_SECRET@github.com/u/r.git" ∧
    pyIn "ghp_SECRET"
      (clone_storedRemoteUrl (some "ghp_SECRET") "https://github.com/u/r.git") = true := by
  constructor
  · decide
  · decide

/-- C1, amended: when a nonempty token is supplied with an HTTPS url, the
token is embedded as URL userinfo and the resulting URL — containing the
plaintext token — is what clone records as the origin remote and what the
push branch writes back with `set_url`; the clone log line of main.py is
written before the rewrite and (for this url and token) does not contain
the token. -/
theorem c1_token_embedded_and_persisted :
    (∀ (t url : String), t ≠ "" → pyStartsWith url "https://" = true →
      pyIn t (clone_storedRemoteUrl (some t) url) = true ∧
      pyIn t (push_storedRemoteUrl t url) = true) ∧
    pyIn "ghp_SECRET" (clone_logLine "https://github.com/u/r.git") = false := by
  constructor
  · intro t url ht hurl
    obtain ⟨rest, hrest⟩ := pyStartsWith_true_iff.mp hurl
    have key : pyIn t (strReplace url "https://" ("https://" ++ t ++ "@")) = true := by
      have hdata : (strReplace url "https://" ("https://" ++ t ++ "@")).data =
          ("https://" ++ t ++ "@").data ++
            replData "https://".data ("https://" ++ t ++ "@").data rest := by
        show replData "https://".data ("https://" ++ t ++ "@").data url.data = _
        rw [← hrest, replData_front _ _ _ (by decide)]
      rw [pyIn_true_iff, hdata, String.data_append, String.data_append]
      exact ⟨"https://".data,
        "@".data ++ replData "https://".data ("https://" ++ t ++ "@").data rest, by simp⟩
    constructor
    · show pyIn t (if (decide (t ≠ "") && pyStartsWith url "https://") = true then
        strReplace url "https://" ("https://" ++ t ++ "@") else url) = true
      rw [if_pos (by rw [hurl, decide_eq_true ht]; rfl)]
      exact key
    · unfold push_storedRemoteUrl
      rw [if_pos hurl]
      exact key
  · decide

/-- C1, witness: the amended statement evaluated at a concrete token and
url. -/
theorem c1_token_embedded_witness :
    pyIn "ghp_SECRET"
      (clone_storedRemoteUrl (some "ghp_SECRET") "https://github.com/u/r.git") = true ∧
    pyIn "ghp_SECRET" (push_storedRemoteUrl "ghp_SECRET" "https://github.com/u/r.git") = true :=
  ⟨(c1_token_embedded_and_persisted.1 "ghp_SECRET" "https://github.com/u/r.git"
      (by decide) (by decide)).1,
   (c1_token_embedded_and_persisted.1 "ghp_SECRET" "https://github.com/u/r.git"
      (by decide) (by decide)).2⟩

/-! ## Claim C2 -/

theorem extractall_all_ok (dest : String) :
    ∀ (entries : List ZipEntry), (∀ e ∈ entries, e.ok = true) →
      extractallModel dest entries =
        (entries.map fun e => extractTarget dest e.filename, true) := by
  intro entries
  induction entries with
  | nil => intro _; rfl
  | cons e rest ih =>
    intro h
    show (if e.ok = true then _ else _) = _
    rw [if_pos (h e (List.mem_cons_self e rest)),
      ih (fun x hx => h x (List.mem_cons_of_mem e hx))]
    rfl

/-- C2, counterexample: an archive whose only entry is named `"../evil.txt"`
is not rejected — the import succeeds and materializes the entry as
`evil.txt` inside the workspace, because `extractall` silently drops the
`".."` component instead of performing a containment check raising
`EscapeAttempt`. -/
theorem c2_evil_entry_extracted_not_rejected :
    (upload_zip "1234567890" "demo" (some [⟨"../evil.txt", true⟩])).success = true ∧
    (upload_zip "1234567890" "demo" (some [⟨"../evil.txt", true⟩])).written =
      ["/tmp/sessions/1234567890_demo/evil.txt"] := by
  constructor
  · decide
  · decide

/-- C2, amended: the import performs no per-entry containment check and
never raises `EscapeAttempt`; instead `extractall` sanitizes each entry
name by dropping empty, `"."` and `".."` components, so every materialized
target lies lexically inside the workspace, and an import whose members all
extract succeeds with exactly those sanitized targets. -/
theorem c2_extraction_sanitizes_and_contains :
    (∀ (dest name : String), NormalAbsRoot dest →
      LexInside dest (extractTarget dest name)) ∧
    (∀ (secret_key project_name : String) (entries : List ZipEntry),
      (∀ e ∈ entries, e.ok = true) →
      (upload_zip secret_key project_name (some entries)).success = true ∧
      (upload_zip secret_key project_name (some entries)).written =
        entries.map fun e =>
          extractTarget (get_session_path secret_key project_name) e.filename) := by
  constructor
  · exact fun dest name h => extractTarget_lexInside dest name h
  · intro secret_key project_name entries hok
    have hu : upload_zip secret_key project_name (some entries) =
        ⟨entries.map fun e =>
            extractTarget (get_session_path secret_key project_name) e.filename,
          true, true⟩ := by
      show (let r := extractallModel (get_session_path secret_key project_name) entries;
        (⟨r.1, true, r.2⟩ : UploadResult)) = _
      rw [extractall_all_ok _ entries hok]
    rw [hu]
    exact ⟨rfl, rfl⟩

/-- C2, witness: the amended statement evaluated at a concrete workspace
root and the `"../evil.txt"` entry of the spec's example. -/
theorem c2_sanitized_extraction_witness :
    LexInside "/tmp/sessions/1234567890_demo"
      (extractTarget "/tmp/sessions/1234567890_demo" "../evil.txt") ∧
    (upload_zip "1234567890" "demo" (some [⟨"sub/f.txt", true⟩])).success = true :=
  ⟨c2_extraction_sanitizes_and_contains.1 "/tmp/sessions/1234567890_demo" "../evil.txt"
      ⟨["tmp".data, "sessions".data, "1234567890_demo".data],
        by decide, by decide, by decide⟩,
   (c2_extraction_sanitizes_and_contains.2 "1234567890" "demo"
      [⟨"sub/f.txt", true⟩] (by decide)).1⟩

/-! ## Claim C3 -/

/-- C3, counterexample: the relative path `"a/../b"` contains a
parent-directory segment, yet `sanitize_path` does not raise — normalization
collapses the segment first and the request proceeds with `"b"`. -/
theorem c3_parent_segment_path_accepted :
    containsParentSeg "a/../b" = true ∧ sanitize_path "a/../b" = some "b" := by
  constructor
  · decide
  · decide

/-- C3, amended: rejection applies to the lexically-normalized form: any
path whose normalization begins with `".."` (or contains `"/.."`) raises
`PathEscape`, including the spec's two examples; and any accepted relative
path joins to a location lexically inside the workspace root, so the root
is never escaped by such requests. -/
theorem c3_normalized_traversal_rejected :
    (∀ p : String, pyStartsWith (normpath p) ".." = true ∨
        pyIn "/.." (normpath p) = true → sanitize_path p = none) ∧
    sanitize_path "../../etc/passwd" = none ∧
    sanitize_path "a/../../b" = none ∧
    (∀ (secret_key project_name p n : String),
      sanitize_path p = some n → pyStartsWith p "/" = false →
      pyEndsWith (get_session_path secret_key project_name) "/" = false →
      LexInside (get_session_path secret_key project_name)
        (pyJoin (get_session_path secret_key project_name) n)) := by
  refine ⟨?_, by decide, by decide, ?_⟩
  · intro p hg
    rw [show sanitize_path p = if (pyStartsWith (normpath p) ".." ||
      pyIn "/.." (normpath p)) = true then none else some (normpath p) from rfl]
    rcases hg with h | h
    · rw [if_pos (by rw [h]; rfl)]
    · rw [if_pos (by rw [h]; simp)]
  · intro secret_key project_name p n hs hrel hend
    exact sanitize_relative_lexInside _ p n hs hrel
      (get_session_path_ne secret_key project_name) hend

/-- C3, witness: the amended statement evaluated at a rejected traversal
and at an accepted relative path of a concrete session. -/
theorem c3_traversal_witness :
    sanitize_path "../x" = none ∧
    LexInside (get_session_path "1234567890" "demo")
      (pyJoin (get_session_path "1234567890" "demo") "sub/a.txt") :=
  ⟨c3_normalized_traversal_rejected.1 "../x" (Or.inl (by decide)),
   c3_normalized_traversal_rejected.2.2.2 "1234567890" "demo" "sub/a.txt" "sub/a.txt"
      (by decide) (by decide) (by decide)⟩

/-! ## Claim C4 -/

/-- C4, counterexample: with a symlink `link -> /etc` inside the workspace,
the request `"link/passwd"` is accepted by main_simple's resolution (no
`PathEscape`, no rejection) even though the canonical form of the resolved
path, following the symlink, is `/etc/passwd`, of which the canonical root
is not a prefix — so the claimed canonicalization-and-prefix check is not
performed. -/
theorem c4_symlink_escape_accepted :
    mainSimple_resolve "1234567890" "demo" "link/passwd" =
      .ok "/tmp/sessions/1234567890_demo/link/passwd" ∧
    canonicalResolve [("/tmp/sessions/1234567890_demo/link", "/etc")]
      "/tmp/sessions/1234567890_demo/link/passwd" = "/etc/passwd" ∧
    pyStartsWith "/etc/passwd" "/tmp/sessions/1234567890_demo" = false := by
  refine ⟨by decide, by decide, by decide⟩

/-- C4, amended: after the lexical check, main_simple verifies only that
the joined, non-canonicalized path string starts with the session root — a
check that accepts every sanitized relative path without consulting the
filesystem, so symlink-based escapes are not rejected; and main.py performs
no second check at all, its file target being the bare join of the root
with the sanitized path. -/
theorem c4_containment_check_is_plain_string_check :
    (∀ (secret_key project_name p n : String),
      sanitize_path p = some n → pyStartsWith n "/" = false →
      pyEndsWith (get_session_path secret_key project_name) "/" = false →
      mainSimple_resolve secret_key project_name p =
        .ok (get_session_path secret_key project_name ++ "/" ++ n)) ∧
    (∀ (secret_key project_name p : String),
      mainPy_file_target secret_key project_name p =
        (sanitize_path p).map fun n =>
          pyJoin (get_session_path secret_key project_name) n) := by
  constructor
  · intro secret_key project_name p n hs hrel hend
    have hsne := get_session_path_ne secret_key project_name
    have hjoin : pyJoin (get_session_path secret_key project_name) n =
        get_session_path secret_key project_name ++ "/" ++ n := by
      unfold pyJoin
      rw [if_neg (by rw [hrel]; simp), if_neg (not_or.mpr ⟨hsne, by rw [hend]; simp⟩)]
    unfold mainSimple_resolve
    rw [hs]
    show (if pyStartsWith (pyJoin (get_session_path secret_key project_name) n)
        (get_session_path secret_key project_name) = true then
      SimpleResolve.ok (pyJoin (get_session_path secret_key project_name) n) else
      SimpleResolve.invalidPath) = _
    rw [hjoin, if_pos (by
      rw [pyStartsWith_true_iff, String.data_append, String.data_append,
        List.append_assoc]
      exact List.prefix_append _ _)]
  · intro secret_key project_name p
    rfl

/-- C4, witness: the amended statement evaluated at a concrete session and
relative path. -/
theorem c4_plain_check_witness :
    mainSimple_resolve "1234567890" "demo" "dir/b.txt" =
      .ok (get_session_path "1234567890" "demo" ++ "/" ++ "dir/b.txt") ∧
    mainPy_file_target "1234567890" "demo" "dir/b.txt" =
      (sanitize_path "dir/b.txt").map fun n =>
        pyJoin (get_session_path "1234567890" "demo") n :=
  ⟨c4_containment_check_is_plain_string_check.1 "1234567890" "demo" "dir/b.txt" "dir/b.txt"
      (by decide) (by decide) (by decide),
   c4_containment_check_is_plain_string_check.2 "1234567890" "demo" "dir/b.txt"⟩

/-! ## Claim C5 -/

/-- C5: `sanitize_path` accepts any absolute input path with no `".."`
parent sequence, `os.path.join` discards the workspace root because the
second argument is absolute, and main.py's `read_file`/`save_file` target
is then that absolute path itself — for `"/etc/passwd"` a path outside
every workspace under the sessions root. -/
theorem c5_absolute_path_bypasses_root :
    (∀ (secret_key project_name p : String),
      pyStartsWith p "/" = true → pyIn ".." p = false →
      sanitize_path p = some (normpath p) ∧
      mainPy_file_target secret_key project_name p = some (normpath p) ∧
      pyStartsWith (normpath p) "/" = true) ∧
    (∀ (secret_key project_name : String),
      mainPy_file_target secret_key project_name "/etc/passwd" = some "/etc/passwd") ∧
    pyStartsWith "/etc/passwd" "/tmp/sessions/" = false := by
  refine ⟨?_, ?_, by decide⟩
  · intro secret_key project_name p habs hno
    obtain ⟨hsan, hnabs⟩ := sanitize_path_abs_accept p habs hno
    refine ⟨hsan, ?_, hnabs⟩
    unfold mainPy_file_target
    rw [hsan]
    show some (pyJoin (get_session_path secret_key project_name) (normpath p)) =
      some (normpath p)
    rw [pyJoin_abs _ _ hnabs]
  · intro secret_key project_name
    unfold mainPy_file_target
    rw [show sanitize_path "/etc/passwd" = some "/etc/passwd" from by decide]
    show some (pyJoin (get_session_path secret_key project_name) "/etc/passwd") =
      some "/etc/passwd"
    rw [pyJoin_abs _ _ (by decide)]

/-- C5, witness: the statement evaluated at a concrete session and the
spec's example path. -/
theorem c5_absolute_escape_witness :
    sanitize_path "/etc/passwd" = some (normpath "/etc/passwd") ∧
    mainPy_file_target "1234567890" "demo" "/etc/passwd" = some (normpath "/etc/passwd") :=
  ⟨(c5_absolute_path_bypasses_root.1 "1234567890" "demo" "/etc/passwd"
      (by decide) (by decide)).1,
   (c5_absolute_path_bypasses_root.1 "1234567890" "demo" "/etc/passwd"
      (by decide) (by decide)).2.1⟩

/-! ## Claim C6 -/

/-- C6: in main_simple.py, the guard `repo.is_dirty(...) or repo.head.commit`
sends a clean workspace with an existing HEAD commit into `git commit`,
which fails ("nothing to commit") and surfaces as HTTP 500 — not the
claimed `CommitNoop` success; main.py's variant does return the no-op
success, confirming the intended behaviour the claim describes. -/
theorem c6_clean_recommit_http_error :
    mainSimple_git_commit false true = .httpError "Git error: nothing to commit" ∧
    mainPy_git_commit false = .noop :=
  ⟨rfl, rfl⟩

/-! ## Claim C7 -/

theorem extractall_stops_at_failure (dest : String) :
    ∀ (pre : List ZipEntry) (e : ZipEntry) (post : List ZipEntry),
      (∀ x ∈ pre, x.ok = true) → e.ok = false →
      extractallModel dest (pre ++ e :: post) =
        (pre.map fun x => extractTarget dest x.filename, false) := by
  intro pre
  induction pre with
  | nil =>
    intro e post _ he
    show (if e.ok = true then _ else _) = _
    rw [if_neg (by rw [he]; simp)]
    rfl
  | cons x xs ih =>
    intro e post h he
    rw [List.cons_append]
    show (if x.ok = true then _ else _) = _
    rw [if_pos (h x (List.mem_cons_self x xs)),
      ih e post (fun y hy => h y (List.mem_cons_of_mem x hy)) he]
    rfl

/-- C7, counterexample: an archive whose first member extracts and whose
second member fails leaves the workspace with the first member
materialized — the import fails having extracted some but not all entries,
contradicting the all-or-nothing claim. -/
theorem c7_partial_extraction_example :
    (upload_zip "1234567890" "demo"
      (some [⟨"a.txt", true⟩, ⟨"b.txt", false⟩])).success = false ∧
    (upload_zip "1234567890" "demo"
      (some [⟨"a.txt", true⟩, ⟨"b.txt", false⟩])).written =
      ["/tmp/sessions/1234567890_demo/a.txt"] := by
  constructor
  · decide
  · decide

/-- C7, amended: when a member fails, extraction stops there but the
members extracted before it remain in the workspace (the import is not
all-or-nothing); only the temporary archive file is guaranteed to be
cleaned up on every path. -/
theorem c7_failed_import_keeps_earlier_entries :
    (∀ (secret_key project_name : String) (pre : List ZipEntry) (e : ZipEntry)
        (post : List ZipEntry),
      (∀ x ∈ pre, x.ok = true) → e.ok = false →
      upload_zip secret_key project_name (some (pre ++ e :: post)) =
        ⟨pre.map fun x =>
            extractTarget (get_session_path secret_key project_name) x.filename,
          true, false⟩) ∧
    (∀ (secret_key project_name : String) (archive : Option (List ZipEntry)),
      (upload_zip secret_key project_name archive).tempCleaned = true) := by
  constructor
  · intro secret_key project_name pre e post hok he
    have hstep : upload_zip secret_key project_name (some (pre ++ e :: post)) =
        ⟨(extractallModel (get_session_path secret_key project_name) (pre ++ e :: post)).1,
          true,
          (extractallModel (get_session_path secret_key project_name) (pre ++ e :: post)).2⟩ :=
      rfl
    rw [hstep, extractall_stops_at_failure _ pre e post hok he]
  · intro secret_key project_name archive
    cases archive with
    | none => rfl
    | some entries => rfl

/-- C7, witness: the amended statement evaluated at a concrete archive with
one good and one failing member. -/
theorem c7_partial_keep_witness :
    upload_zip "1234567890" "demo" (some ([⟨"a.txt", true⟩] ++ ⟨"b.txt", false⟩ :: [])) =
      ⟨["/tmp/sessions/1234567890_demo/a.txt"], true, false⟩ :=
  c7_failed_import_keeps_earlier_entries.1 "1234567890" "demo"
    [⟨"a.txt", true⟩] ⟨"b.txt", false⟩ [] (by decide) (by decide)

/-! ## Claim C8 -/

/-- A decimal digit `'0'`-`'9'` lies in the first digit range, so every
decimal digit passes the CPython digit test. -/
theorem pyIsDigitChar_of_isDigit (c : Char) (h : c.isDigit = true) :
    pyIsDigitChar c = true := by
  have hb : 48 ≤ c.toNat ∧ c.toNat ≤ 57 := by
    simp [Char.isDigit] at h
    exact h
  unfold pyIsDigitChar
  rw [List.any_eq_true]
  exact ⟨(48, 57), by decide, decide_eq_true hb⟩

/-- C8, counterexample: the 10-character key of superscript-two characters
is not made of decimal digits, yet CPython's `str.isdigit` accepts it, so
login validation succeeds — identity resolution does not fail exactly when
the key is not 10 decimal digits. -/
theorem c8_nondecimal_key_accepted :
    login "²²²²²²²²²²" = true ∧
    "²²²²²²²²²²".length = 10 ∧
    "²²²²²²²²²²".data.all Char.isDigit = false := by
  refine ⟨by decide, by decide, by decide⟩

/-- C8, amended: login validation succeeds exactly when the secret key is
ten characters all accepted by Python's `str.isdigit`; since `str.isdigit`
also accepts non-ASCII digit characters such as `'²'`, this is strictly
weaker than requiring decimal digits — but every 10-decimal-digit key does
succeed, and the spec's three examples behave as claimed. -/
theorem c8_validation_is_python_isdigit :
    (∀ secret_key : String, login secret_key = true ↔
      (secret_key.length = 10 ∧ ∀ c ∈ secret_key.data, pyIsDigitChar c = true)) ∧
    (∀ secret_key : String, secret_key.length = 10 →
      (∀ c ∈ secret_key.data, c.isDigit = true) → login secret_key = true) ∧
    login "1234567890" = true ∧
    login "123456789" = false ∧
    login "12345abcde" = false := by
  have hiff : ∀ secret_key : String, login secret_key = true ↔
      (secret_key.length = 10 ∧ ∀ c ∈ secret_key.data, pyIsDigitChar c = true) := by
    intro k
    unfold login pyIsDigit
    constructor
    · intro h
      rw [Bool.and_eq_true, Bool.and_eq_true] at h
      obtain ⟨⟨_, hall⟩, hlen⟩ := h
      exact ⟨beq_iff_eq.mp hlen, List.all_eq_true.mp hall⟩
    · intro h
      obtain ⟨hlen, hd⟩ := h
      rw [Bool.and_eq_true, Bool.and_eq_true]
      have hne : k.data ≠ [] := by
        intro h0
        have hz : k.length = 0 := by
          rw [show k.length = k.data.length from rfl, h0]
          rfl
        omega
      refine ⟨⟨?_, List.all_eq_true.mpr hd⟩, beq_iff_eq.mpr hlen⟩
      simp [hne]
  refine ⟨hiff, ?_, by decide, by decide, by decide⟩
  intro k hlen hdec
  exact (hiff k).mpr ⟨hlen, fun c hc => pyIsDigitChar_of_isDigit c (hdec c hc)⟩

/-- C8, witness: the amended statement applied at the spec's valid example
key and at another key of decimal digits. -/
theorem c8_python_isdigit_witness :
    login "1234567890" = true ∧ login "0000000000" = true :=
  ⟨c8_validation_is_python_isdigit.2.2.1,
   c8_validation_is_python_isdigit.2.1 "0000000000" (by decide) (by decide)⟩

/-! ## Claim C9 -/

/-- C9: a broadcast iterates exactly the group registered for the session
at call time, delivers to every connection whose send succeeds, and removes
the failed connections only after the full pass (for a duplicate-free group
the post-pass removals leave exactly the live connections); disconnecting
a registered connection shrinks the group by one; and in the two-connection
scenario both receive the first broadcast, and after one disconnects the
second broadcast reaches only the remaining connection. -/
theorem c9_broadcast_collect_then_remove :
    (∀ (alive : Conn → Bool) (st : HubState) (sid : String) (group : List Conn),
      st.sessions.lookup sid = some group →
      (broadcastSession alive st sid).attempted = group ∧
      (broadcastSession alive st sid).delivered = group.filter alive ∧
      (broadcastSession alive st sid).state =
        hubSet st sid ((group.filter fun c => !alive c).foldl
          (fun g w => g.erase w) group)) ∧
    (∀ (alive : Conn → Bool) (group : List Conn), group.Nodup →
      (group.filter fun c => !alive c).foldl (fun g w => g.erase w) group =
        group.filter alive) ∧
    (∀ (st : HubState) (sid : String) (w : Conn), w ∈ hubGroup st sid →
      (hubGroup (wsDisconnect st sid w) sid).length + 1 = (hubGroup st sid).length) ∧
    ((broadcastSession (fun _ => true)
        (wsConnect (wsConnect ⟨[]⟩ "S" 0) "S" 1) "S").delivered = [0, 1] ∧
      hubGroup (wsDisconnect (wsConnect (wsConnect ⟨[]⟩ "S" 0) "S" 1) "S" 1) "S" = [0] ∧
      (broadcastSession (fun _ => true)
        (wsDisconnect (wsConnect (wsConnect ⟨[]⟩ "S" 0) "S" 1) "S" 1) "S").delivered = [0]) := by
  refine ⟨?_, ?_, ?_, by decide, by decide, by decide⟩
  · intro alive st sid group h
    unfold broadcastSession
    rw [h]
    exact ⟨rfl, rfl, rfl⟩
  · intro alive group hnd
    exact failed_removal_eq_filter alive group hnd
  · intro st sid w hw
    cases hl : st.sessions.lookup sid with
    | none =>
      exfalso
      unfold hubGroup at hw
      rw [hl] at hw
      exact absurd hw (List.not_mem_nil w)
    | some g =>
      have hgg : hubGroup st sid = g := by
        unfold hubGroup
        rw [hl]
        rfl
      have hwg : w ∈ g := by rw [← hgg]; exact hw
      have hlen : 1 ≤ g.length := List.length_pos.mpr (by
        intro h0
        rw [h0] at hwg
        exact absurd hwg (List.not_mem_nil w))
      rw [hubGroup_wsDisconnect st sid w (by rw [hl]; rfl), hgg,
        List.length_erase_of_mem hwg]
      omega

/-- C9, witness: the broadcast characterization evaluated at a concrete
registry with two connections. -/
theorem c9_broadcast_witness :
    (broadcastSession (fun c => c == 0) ⟨[("S", [0, 1])]⟩ "S").delivered = [0] ∧
    ([0, 1].filter fun c => !(c == 0)).foldl (fun g w => g.erase w) [0, 1] =
      [0, 1].filter (fun c => c == 0) ∧
    (hubGroup (wsDisconnect ⟨[("S", [0, 1])]⟩ "S" 1) "S").length + 1 =
      (hubGroup ⟨[("S", [0, 1])]⟩ "S").length :=
  ⟨(c9_broadcast_collect_then_remove.1 (fun c => c == 0) ⟨[("S", [0, 1])]⟩ "S" [0, 1]
      rfl).2.1,
   c9_broadcast_collect_then_remove.2.1 (fun c => c == 0) [0, 1] (by decide),
   c9_broadcast_collect_then_remove.2.2.1 ⟨[("S", [0, 1])]⟩ "S" 1 (by decide)⟩

/-! ## Claim C10 -/

/-- C10: when either argument of `broadcast_to_websocket` is missing (or
empty, per Python truthiness), the call falls back to delivering the
message to every connection of every session — the fan-out crosses
session-group boundaries instead of being restricted to one session id. -/
theorem c10_missing_session_broadcasts_all :
    (∀ (alive : Conn → Bool) (st : HubState) (sk pn : Option String),
      truthy sk = false ∨ truthy pn = false →
      broadcast_to_websocket alive st sk pn = broadcastAll alive st ∧
      (broadcast_to_websocket alive st sk pn).attempted =
        (st.sessions.map Prod.snd).flatten ∧
      (broadcast_to_websocket alive st sk pn).delivered =
        ((st.sessions.map Prod.snd).flatten).filter alive) ∧
    (∀ (alive : Conn → Bool) (st : HubState) (pn : Option String),
      broadcast_to_websocket alive st none pn = broadcastAll alive st) := by
  have hall : ∀ (alive : Conn → Bool) (st : HubState) (sk pn : Option String),
      truthy sk = false ∨ truthy pn = false →
      broadcast_to_websocket alive st sk pn = broadcastAll alive st := by
    intro alive st sk pn h
    unfold broadcast_to_websocket
    rcases h with h | h
    · rw [if_neg (by rw [h]; simp)]
    · rw [if_neg (by rw [h]; simp)]
  constructor
  · intro alive st sk pn h
    refine ⟨hall alive st sk pn h, ?_, ?_⟩
    · rw [hall alive st sk pn h]
      rfl
    · rw [hall alive st sk pn h]
      rfl
  · intro alive st pn
    exact hall alive st none pn (Or.inl rfl)

/-- C10, witness: the fallback fan-out evaluated at a concrete registry
with two sessions. -/
theorem c10_fallback_witness :
    broadcast_to_websocket (fun _ => true) ⟨[("A", [0]), ("B", [1, 2])]⟩ none (some "x") =
      broadcastAll (fun _ => true) ⟨[("A", [0]), ("B", [1, 2])]⟩ ∧
    (broadcast_to_websocket (fun _ => true) ⟨[("A", [0]), ("B", [1, 2])]⟩
      none (some "x")).attempted = [0, 1, 2] :=
  ⟨(c10_missing_session_broadcasts_all.1 (fun _ => true) ⟨[("A", [0]), ("B", [1, 2])]⟩
      none (some "x") (Or.inl rfl)).1,
   by
    rw [(c10_missing_session_broadcasts_all.1 (fun _ => true) ⟨[("A", [0]), ("B", [1, 2])]⟩
      none (some "x") (Or.inl rfl)).2.1]
    decide⟩

end WebIDE
